import Mathlib

/-!
Verification of the SNP-viewer Touchstone decoder.

Shallow embedding of `src/snp_viewer/touchstone.py` and
`src/snp_viewer/analysis.py`.  Strings are modelled as `List Char`,
floating-point numbers as exact rationals (`ℚ`) in the tokenizing /
assembling stages and as real numbers (`ℝ`, `ℂ`) in the trigonometric
complex-value conversion.  Python string primitives (`strip`, `split`,
`in`, `int`, `float`) are embedded by the `py*` functions below.
-/

/- Batteries marks the rational-number operations `@[irreducible]`; the
decoder's token values are exact rationals, so they are unsealed to let
`decide` and `rfl` evaluate concrete decodes. -/
unseal Rat.mul Rat.add Rat.sub Rat.inv Rat.ofScientific

namespace SnpViewer

/-! ## Python string primitives -/

/-- The whitespace characters stripped by Python's `str.strip()` and used as
separators by `str.split()` (ASCII subset; the decoder only meets ASCII). -/
def isPySpace (c : Char) : Bool :=
  c = ' ' || c = '\t' || c = '\n' || c = '\r' || c = '\x0b' || c = '\x0c'

/-- Python `str.strip()`: remove leading and trailing whitespace. -/
def pyStrip (s : List Char) : List Char :=
  ((s.dropWhile isPySpace).reverse.dropWhile isPySpace).reverse

/-- Python `str.split()` with no argument: split on runs of whitespace,
returning no empty tokens. -/
def pySplitWs : List Char → List (List Char)
  | [] => []
  | c :: t =>
    if isPySpace c then pySplitWs t
    else
      match t.head? with
      | some d =>
        if isPySpace d then [c] :: pySplitWs t
        else
          match pySplitWs t with
          | g :: gs => (c :: g) :: gs
          | [] => [[c]]
      | none => [[c]]

/-- Whether the two-character sequence `[a, b]` occurs as a contiguous
substring: Python's `"ab" in s`. -/
def containsSub (a b : Char) : List Char → Bool
  | [] => false
  | [_] => false
  | c :: d :: t => (c = a && d = b) || containsSub a b (d :: t)

/-- The suffix after the last occurrence of the two-character separator
`[a, b]`, or `none` when it does not occur.  For a separator whose two
characters are distinct (the decoder only uses `".s"`), occurrences cannot
overlap, so this equals the last element of Python's `s.split(sep)`. -/
def afterLastSep? (a b : Char) : List Char → Option (List Char)
  | [] => none
  | c :: t =>
    match afterLastSep? a b t with
    | some v => some v
    | none =>
      match t with
      | d :: v => if c = a && d = b then some v else none
      | [] => none

/-- Python `s.split(sep)[-1]` (guarded by `sep in s` at every use site). -/
def lastSplitSeg (a b : Char) (s : List Char) : List Char :=
  (afterLastSep? a b s).getD s

/-! ## Python numeric literal parsing (`int(...)` / `float(...)`) -/

/-- Numeric value of a decimal digit character. -/
def digitVal (c : Char) : ℕ := c.toNat - 48

/-- A digit group as accepted inside Python numeric strings: nonempty,
decimal digits with optional single `_` separators strictly between
digits (`"1_000"` is valid, `"_1"`, `"1_"`, `"1__2"` are not). -/
def groupedDigitsOk (s : List Char) : Bool :=
  match s.head?, s.getLast? with
  | some c, some d =>
    c.isDigit && d.isDigit &&
    (s.all fun x => x.isDigit || x = '_') &&
    ((s.zip s.tail).all fun p => !(p.1 = '_' && p.2 = '_'))
  | _, _ => false

/-- Value of a valid digit group, ignoring `_` separators. -/
def digitsToNat (s : List Char) : ℕ :=
  (s.filter fun c => c ≠ '_').foldl (fun a c => 10 * a + digitVal c) 0

/-- Split an optional leading sign off a numeric string. -/
def splitSign (s : List Char) : ℤ × List Char :=
  match s with
  | c :: r =>
    if c = '+' then (1, r) else if c = '-' then (-1, r) else (1, s)
  | [] => (1, s)

/-- Python `int(s)` for decimal strings: optional surrounding whitespace,
optional sign, then a digit group.  (Non-decimal and non-ASCII forms do not
arise from the decoder's inputs.) -/
def pyInt? (s : List Char) : Option ℤ :=
  let t := pyStrip s
  let (sgn, u) := splitSign t
  if groupedDigitsOk u then some (sgn * (digitsToNat u : ℤ)) else none

/-- Split a float body at the first exponent marker `e`/`E`. -/
def splitExp (s : List Char) : List Char × Option (List Char) :=
  let mant := s.takeWhile fun c => c ≠ 'e' && c ≠ 'E'
  if mant.length = s.length then (mant, none)
  else (mant, some (s.drop (mant.length + 1)))

/-- Parse the mantissa of a Python float literal (digits with an optional
decimal point) to an exact rational. -/
def parseMantissa? (s : List Char) : Option ℚ :=
  let ip := s.takeWhile fun c => c ≠ '.'
  if ip.length = s.length then
    if groupedDigitsOk ip then some (digitsToNat ip : ℚ) else none
  else
    let fp := s.drop (ip.length + 1)
    if (ip = [] || groupedDigitsOk ip) && (fp = [] || groupedDigitsOk fp)
        && !(ip = [] && fp = []) then
      some ((digitsToNat ip : ℚ) +
        (digitsToNat fp : ℚ) / 10 ^ (fp.filter fun c => c ≠ '_').length)
    else none

/-- Python `float(s)` for finite decimal literals: optional surrounding
whitespace and sign, mantissa, optional exponent.  (The special spellings
`inf`/`nan`, which have no value in `ℚ`, are treated as unparseable; none of
the verified claims depends on them.) -/
def pyFloat? (s : List Char) : Option ℚ :=
  let t := pyStrip s
  let (sgn, u) := splitSign t
  let (mant, expo?) := splitExp u
  match parseMantissa? mant with
  | none => none
  | some m =>
    match expo? with
    | none => some ((sgn : ℚ) * m)
    | some es =>
      let (esgn, ed) := splitSign es
      if groupedDigitsOk ed then
        some ((sgn : ℚ) * (m * 10 ^ (esgn * (digitsToNat ed : ℤ))))
      else none

/-! ## The Touchstone decoder (`src/snp_viewer/touchstone.py`) -/

/-- The two fatal decode errors (the source raises `ValueError` with a
distinguishing message; the spec names them as below). -/
inductive TsError where
  | unrecognizedPortCount
  | insufficientData
  deriving DecidableEq, Repr

/-- The decoder's output record (`TouchstoneData` dataclass): frequencies in
Hz, per-point `P × P` complex matrices, port count, data format string and
reference impedance. -/
structure TouchstoneData where
  freq_hz : List ℚ
  s : List (List (List ℂ))
  nports : ℤ
  fmt : List Char
  z0 : ℚ

/-- Embedding of `_infer_nports(filename)`: lower-case the name, require `".s" in lower`
and `lower.endswith("p")`, then `int` of the text of `lower.split(".s")[-1]`
with the trailing `"p"` dropped; `0` on any failure. -/
def _infer_nports (filename : List Char) : ℤ :=
  let lower := filename.map Char.toLower
  if containsSub '.' 's' lower && lower.getLast? = some 'p' then
    match pyInt? (lastSplitSeg '.' 's' lower).dropLast with
    | some n => n
    | none => 0
  else 0

/-- Embedding of `_unit_scale(parts)`: membership tests in the header token list, in the
source's order `HZ`, `KHZ`, `MHZ`, `GHZ`, defaulting to `1.0`. -/
def _unit_scale (parts : List (List Char)) : ℚ :=
  if "HZ".toList ∈ parts then 1
  else if "KHZ".toList ∈ parts then 1000
  else if "MHZ".toList ∈ parts then 1000000
  else if "GHZ".toList ∈ parts then 1000000000
  else 1

/-- Embedding of `_parse_format(parts)`: first of `RI`, `MA`, `DB` present in the header
token list, defaulting to `RI`. -/
def _parse_format (parts : List (List Char)) : List Char :=
  if "RI".toList ∈ parts then "RI".toList
  else if "MA".toList ∈ parts then "MA".toList
  else if "DB".toList ∈ parts then "DB".toList
  else "RI".toList

/-- Embedding of `_parse_z0(parts)`: if `"R" in parts` and the token after the first `R`
exists and parses as a float, return it, else `50.0`. -/
def _parse_z0 (parts : List (List Char)) : ℚ :=
  match parts.indexOf? "R".toList with
  | some idx =>
    match parts[idx + 1]? with
    | some tok => (pyFloat? tok).getD 50
    | none => 50
  | none => 50

/-- Embedding of `np.deg2rad`: degrees to radians. -/
noncomputable def deg2rad (x : ℝ) : ℝ := x * (Real.pi / 180)

/-- Embedding of `_to_complex(a, b, fmt)`: one value pair to a complex number under the
selected format (`RI` rectangular, `MA` polar magnitude/angle-degrees, `DB`
polar dB-magnitude/angle-degrees, defaulting to rectangular). -/
noncomputable def _to_complex (a b : ℝ) (fmt : List Char) : ℂ :=
  let fmtU := fmt.map Char.toUpper
  if fmtU = "RI".toList then (a : ℂ) + Complex.I * (b : ℂ)
  else if fmtU = "MA".toList then
    let ang := deg2rad b
    (a : ℂ) * ((Real.cos ang : ℂ) + Complex.I * (Real.sin ang : ℂ))
  else if fmtU = "DB".toList then
    let mag := (10 : ℝ) ^ (a / 20)
    let ang := deg2rad b
    (mag : ℂ) * ((Real.cos ang : ℂ) + Complex.I * (Real.sin ang : ℂ))
  else (a : ℂ) + Complex.I * (b : ℂ)

/-- Accumulator of the line-processing loop in `read_touchstone`: the header
settings (initially `1.0`, `"RI"`, `50.0`) and the flat numeric token
stream `data_rows` collected so far. -/
structure LoopState where
  unit_scale : ℚ
  fmt : List Char
  z0 : ℚ
  data_rows : List ℚ
  deriving DecidableEq

/-- Initial loop state of `read_touchstone`. -/
def initState : LoopState := ⟨1, "RI".toList, 50, []⟩

/-- The upper-cased whitespace-split token list of a (stripped) header line:
`line.upper().split()`. -/
def headerTokens (strippedLine : List Char) : List (List Char) :=
  pySplitWs (strippedLine.map Char.toUpper)

/-- Tab-to-space replacement applied to data lines (`line.replace("\t", " ")`). -/
def tabToSpace (c : Char) : Char := if c = '\t' then ' ' else c

/-- The numeric tokens contributed by one stripped data line: strip an
inline `!` comment if present, drop the line if then empty, split on
whitespace and keep the tokens that parse as floats. -/
def dataLineFloats (strippedLine : List Char) : List ℚ :=
  let line2 :=
    if strippedLine.contains '!' then
      pyStrip (strippedLine.takeWhile fun c => c ≠ '!')
    else strippedLine
  if line2.isEmpty then []
  else (pySplitWs (line2.map tabToSpace)).filterMap pyFloat?

/-- One iteration of the `for line in text` loop of `read_touchstone`:
strip the line; skip blank and `!`-comment lines; a `#` line replaces the
header settings with those parsed from its `headerTokens`; any other line
appends its `dataLineFloats` to the token stream. -/
def stepLine (st : LoopState) (rawLine : List Char) : LoopState :=
  let line := pyStrip rawLine
  if line.isEmpty then st
  else if line.head? = some '!' then st
  else if line.head? = some '#' then
    let parts := headerTokens line
    { st with
      unit_scale := _unit_scale parts
      fmt := _parse_format parts
      z0 := _parse_z0 parts }
  else { st with data_rows := st.data_rows ++ dataLineFloats line }

/-- The point-assembly stage of `read_touchstone` (lines 73–79): with
`per_point = 1 + (P*P)*2`, fail when fewer tokens than one record are
present, otherwise truncate to `len // per_point` complete records and
chunk the truncated stream into fixed-width records. -/
def assemblePoints (P : ℕ) (data_rows : List ℚ) :
    Except TsError (List (List ℚ)) :=
  let per_point := 1 + (P * P) * 2
  if data_rows.length < per_point then .error .insufficientData
  else
    let total := data_rows.length / per_point
    .ok ((List.range total).map fun k =>
      (((data_rows.take (total * per_point)).drop (k * per_point)).take per_point))

/-- The per-record matrix construction of `read_touchstone`: entry `(i, j)`
(row-major) is `_to_complex` of the value pair at offset `2*(i*P + j)` in
the record's tail. -/
noncomputable def buildMatrix (P : ℕ) (vals : List ℚ) (fmt : List Char) :
    List (List ℂ) :=
  (List.range P).map fun i =>
    (List.range P).map fun j =>
      _to_complex ((vals.getD (2 * (i * P + j)) 0 : ℚ) : ℝ)
        ((vals.getD (2 * (i * P + j) + 1) 0 : ℚ) : ℝ) fmt

/-- Embedding of `read_touchstone(path)`, with the file's name and its text's lines as
inputs (the I/O that produces them is outside the model): infer the port
count, run the line loop, fail for a non-positive port count, assemble
fixed-width records, and build the dataset with frequencies scaled by the
header's unit. -/
noncomputable def read_touchstone (filename : List Char)
    (text : List (List Char)) : Except TsError TouchstoneData :=
  let nports := _infer_nports filename
  let st := text.foldl stepLine initState
  if nports ≤ 0 then .error .unrecognizedPortCount
  else
    match assemblePoints nports.toNat st.data_rows with
    | .error e => .error e
    | .ok rows =>
      let freq := rows.map fun r => r.headD 0 * st.unit_scale
      let s := rows.map fun r => buildMatrix nports.toNat (r.drop 1) st.fmt
      .ok ⟨freq, s, nports, st.fmt, st.z0⟩

/-- Observer: the error produced by a decode, if any (the dataset side of
`Except` carries complex matrices and has no decidable equality, so
concrete decode outcomes are stated through this projection). -/
def decodeError? : Except TsError TouchstoneData → Option TsError
  | .error e => some e
  | .ok _ => none

/-- Modelled from the spec (section 4.1): the case-insensitive filename
pattern "contains `.s`, ends in `p`, with one or more decimal digits
between them", checked as: final character `p`, preceded by a nonempty run
of decimal digits, preceded by `.s`.  Used only to compare the spec's
stated pattern with the source's `_infer_nports`. -/
def specPortPattern (filename : List Char) : Bool :=
  let rev := (filename.map Char.toLower).reverse
  rev.head? = some 'p' &&
  !(rev.tail.takeWhile Char.isDigit).isEmpty &&
  (rev.tail.dropWhile Char.isDigit).take 2 = ['s', '.']

/-- Modelled from the spec (section 4.1): the embedded digit value of a
filename matching `specPortPattern` (reading the digit run that precedes
the final `p`). -/
def specPortValue (filename : List Char) : ℕ :=
  digitsToNat
    ((filename.map Char.toLower).reverse.tail.takeWhile Char.isDigit).reverse

/-- The spec's point-assembly example: 2 ports, 18 record tokens plus 3
trailing tokens. -/
def c1ExampleTokens : List ℚ := (List.range 21).map fun n => (n : ℚ)

/-- A concrete successful decode used to witness C4: a 1-port file with a
header line and one data point. -/
noncomputable def c4ExampleDecode : TouchstoneData :=
  match read_touchstone "a.s1p".toList
      ["# MHZ S MA R 75".toList, "2 0.5 30".toList] with
  | .ok d => d
  | .error _ => ⟨[], [], 0, [], 0⟩

/-! ## The magnitude transform (`src/snp_viewer/analysis.py`) -/

/-- Embedding of `sparam_db(s)`: magnitude in dB with a `1e-20` floor, safe for zeros. -/
noncomputable def sparam_db (s : ℂ) : ℝ :=
  20 * Real.logb 10 (max (Complex.abs s) 1e-20)

/-! ## Claim theorems -/

/-- C3: for every value pair `(a, b)`, the converter produces `a + i·b`
under the `RI` (RectangularRealImaginary) encoding, `a·(cos θ + i·sin θ)`
with `θ = b·π/180` under the `MA` (PolarMagnitudeAngleDegrees) encoding,
and `10^(a/20)·(cos θ + i·sin θ)` with the same `θ` under the `DB`
(PolarDbAngleDegrees) encoding. -/
theorem c3_complex_conversion_formulas (a b : ℝ) :
    _to_complex a b "RI".toList = (a : ℂ) + (b : ℂ) * Complex.I ∧
    _to_complex a b "MA".toList =
      (a : ℂ) * ((Real.cos (b * (Real.pi / 180)) : ℂ) +
        (Real.sin (b * (Real.pi / 180)) : ℂ) * Complex.I) ∧
    _to_complex a b "DB".toList =
      (((10 : ℝ) ^ (a / 20) : ℝ) : ℂ) * ((Real.cos (b * (Real.pi / 180)) : ℂ) +
        (Real.sin (b * (Real.pi / 180)) : ℂ) * Complex.I) := by
  refine ⟨?_, ?_, ?_⟩
  · rw [show _to_complex a b "RI".toList = (a : ℂ) + Complex.I * (b : ℂ) from rfl]
    ring
  · rw [show _to_complex a b "MA".toList =
      (a : ℂ) * ((Real.cos (deg2rad b) : ℂ) + Complex.I * (Real.sin (deg2rad b) : ℂ))
      from rfl, deg2rad]
    ring
  · rw [show _to_complex a b "DB".toList =
      (((10 : ℝ) ^ (a / 20) : ℝ) : ℂ) *
        ((Real.cos (deg2rad b) : ℂ) + Complex.I * (Real.sin (deg2rad b) : ℂ))
      from rfl, deg2rad]
    ring

/-- C9: the magnitude transform is total and computes
`20·log10 (max |x| 1e-20)`; the input `0` yields exactly `-400` dB and the
input `1` yields `0` dB. -/
theorem c9_magnitude_transform :
    sparam_db 0 = -400 ∧ sparam_db 1 = 0 ∧
    ∀ x : ℂ, sparam_db x = 20 * Real.logb 10 (max (Complex.abs x) 1e-20) := by
  refine ⟨?_, ?_, fun x => rfl⟩
  · have h0 : Complex.abs 0 = 0 := map_zero _
    have hsci : (1e-20 : ℝ) = (10 : ℝ) ^ ((-20 : ℤ) : ℝ) := by
      rw [Real.rpow_intCast]
      norm_num
    rw [sparam_db, h0, max_eq_right (by norm_num), hsci,
      Real.logb_rpow (by norm_num) (by norm_num)]
    norm_num
  · have h1 : Complex.abs 1 = 1 := map_one _
    rw [sparam_db, h1, max_eq_left (by norm_num), Real.logb_one]
    norm_num

/-- C8: for every magnitude `m > 0` and angle `θ` in degrees, the `MA` pair
`(m, θ)`, the `DB` pair `(20·log10 m, θ)` and the rectangular `RI` pair
`(m·cos θrad, m·sin θrad)` all convert to the same complex value. -/
theorem c8_encoding_equivalence (m θ : ℝ) (hm : 0 < m) :
    _to_complex (m * Real.cos (deg2rad θ)) (m * Real.sin (deg2rad θ)) "RI".toList =
      _to_complex m θ "MA".toList ∧
    _to_complex (20 * Real.logb 10 m) θ "DB".toList =
      _to_complex m θ "MA".toList := by
  constructor
  · rw [show ∀ a b : ℝ, _to_complex a b "RI".toList = (a : ℂ) + Complex.I * (b : ℂ)
        from fun a b => rfl,
      show _to_complex m θ "MA".toList =
        (m : ℂ) * ((Real.cos (deg2rad θ) : ℂ) + Complex.I * (Real.sin (deg2rad θ) : ℂ))
        from rfl]
    push_cast
    ring
  · rw [show _to_complex (20 * Real.logb 10 m) θ "DB".toList =
        (((10 : ℝ) ^ ((20 * Real.logb 10 m) / 20) : ℝ) : ℂ) *
          ((Real.cos (deg2rad θ) : ℂ) + Complex.I * (Real.sin (deg2rad θ) : ℂ))
        from rfl,
      show _to_complex m θ "MA".toList =
        (m : ℂ) * ((Real.cos (deg2rad θ) : ℂ) + Complex.I * (Real.sin (deg2rad θ) : ℂ))
        from rfl]
    rw [show (20 * Real.logb 10 m) / 20 = Real.logb 10 m by ring,
      Real.rpow_logb (by norm_num) (by norm_num) hm]

/-- One chunk of the truncated stream equals the same chunk of the full
stream, for in-range chunk indices. -/
theorem chunk_of_take_eq {α : Type} (l : List α) (w k total : ℕ)
    (hk : k < total) :
    ((l.take (total * w)).drop (k * w)).take w = (l.drop (k * w)).take w := by
  rw [List.drop_take, List.take_take]
  have hle : w ≤ total * w - k * w := by
    have h1 : (k + 1) * w ≤ total * w := Nat.mul_le_mul_right w hk
    have h2 : (k + 1) * w = k * w + w := by ring
    omega
  rw [min_eq_left hle]

/-- Concatenating the `total` fixed-width chunks of a stream reproduces its
first `total * w` elements. -/
theorem join_chunks {α : Type} (w : ℕ) :
    ∀ (total : ℕ) (l : List α), total * w ≤ l.length →
      ((List.range total).map fun k => (l.drop (k * w)).take w).flatten =
        l.take (total * w) := by
  intro total
  induction total with
  | zero => intro l _; simp
  | succ t ih =>
    intro l h
    have ht : t * w ≤ l.length := le_trans (by nlinarith) h
    rw [List.range_succ, List.map_append, List.flatten_append, ih l ht]
    simp only [List.map_cons, List.map_nil, List.flatten_cons, List.flatten_nil,
      List.append_nil]
    rw [← List.take_add]
    congr 1
    ring

/-- C1: for every port count `P ≥ 1` and flat numeric token stream of
length `T`, with `record_width = 1 + 2·P²` the assembler fails with
`InsufficientData` when `T < record_width`, and otherwise succeeds with
exactly `⌊T / record_width⌋` records, the `k`-th being the `k`-th
`record_width`-token slice of the stream, their concatenation being the
first `⌊T / record_width⌋ · record_width` tokens in original order (all
trailing tokens discarded). -/
theorem c1_point_assembler (P : ℕ) (hP : 1 ≤ P) (toks : List ℚ) :
    (toks.length < 1 + 2 * P ^ 2 →
      assemblePoints P toks = .error .insufficientData) ∧
    (1 + 2 * P ^ 2 ≤ toks.length → (assemblePoints P toks).isOk = true) ∧
    ∀ pts, assemblePoints P toks = .ok pts →
      pts.length = toks.length / (1 + 2 * P ^ 2) ∧
      (∀ k, k < pts.length →
        pts[k]? = some ((toks.drop (k * (1 + 2 * P ^ 2))).take (1 + 2 * P ^ 2))) ∧
      pts.flatten = toks.take (toks.length / (1 + 2 * P ^ 2) * (1 + 2 * P ^ 2)) := by
  have hw : 1 + (P * P) * 2 = 1 + 2 * P ^ 2 := by ring
  refine ⟨?_, ?_, ?_⟩
  · intro h
    rw [← hw] at h
    simp only [assemblePoints]
    rw [if_pos h]
  · intro h
    rw [← hw] at h
    simp only [assemblePoints]
    rw [if_neg (by omega)]
    rfl
  · intro pts hpts
    simp only [assemblePoints] at hpts
    by_cases h : toks.length < 1 + (P * P) * 2
    · rw [if_pos h] at hpts
      cases hpts
    · rw [if_neg h] at hpts
      injection hpts with hpts
      subst hpts
      rw [hw] at *
      set w := 1 + 2 * P ^ 2 with hwdef
      set total := toks.length / w with htotal
      have hmul : total * w ≤ toks.length := Nat.div_mul_le_self _ _
      refine ⟨by simp, ?_, ?_⟩
      · intro k hk
        rw [List.length_map, List.length_range] at hk
        rw [List.getElem?_map, List.getElem?_range hk]
        simp only [Option.map_some']
        rw [chunk_of_take_eq toks w k total hk]
      · have hcong : ((List.range total).map fun k =>
            ((toks.take (total * w)).drop (k * w)).take w) =
            (List.range total).map fun k => (toks.drop (k * w)).take w := by
          apply List.map_congr_left
          intro k hk
          exact chunk_of_take_eq toks w k total (List.mem_range.mp hk)
        rw [hcong, join_chunks w total toks hmul]

/-- Witness for C1: on the 21-token stream with `P = 2` (record width 9)
the assembler succeeds with exactly 2 records. -/
theorem c1_witness :
    (1 : ℕ) ≤ 2 ∧ 1 + 2 * 2 ^ 2 ≤ c1ExampleTokens.length ∧
    (assemblePoints 2 c1ExampleTokens).isOk = true ∧
    (assemblePoints 2 c1ExampleTokens).toOption.map List.length = some 2 := by
  have h := c1_point_assembler 2 (by norm_num) c1ExampleTokens
  have hlen : 1 + 2 * 2 ^ 2 ≤ c1ExampleTokens.length := by decide
  have hok := h.2.1 hlen
  refine ⟨by norm_num, hlen, hok, ?_⟩
  cases hE : assemblePoints 2 c1ExampleTokens with
  | error e => rw [hE] at hok; simp [Except.isOk, Except.toBool] at hok
  | ok pts =>
    have hp := h.2.2 pts hE
    simp only [Except.toOption, Option.map_some', hp.1]
    decide

/-- C4: every dataset returned by a successful decode has as many
frequencies as matrices, carries the positive port count inferred from the
filename, and every matrix is square of that size.  (Failure returns a bare
error value: the `Except` result carries no dataset at all.) -/
theorem c4_dataset_invariants (filename : List Char) (text : List (List Char))
    (d : TouchstoneData) (h : read_touchstone filename text = .ok d) :
    d.freq_hz.length = d.s.length ∧
    d.nports = _infer_nports filename ∧
    0 < d.nports ∧
    ∀ m ∈ d.s, m.length = d.nports.toNat ∧
      ∀ row ∈ m, row.length = d.nports.toNat := by
  simp only [read_touchstone] at h
  by_cases hn : _infer_nports filename ≤ 0
  · rw [if_pos hn] at h
    cases h
  · rw [if_neg hn] at h
    cases hA : assemblePoints (_infer_nports filename).toNat
        (List.foldl stepLine initState text).data_rows with
    | error e => rw [hA] at h; cases h
    | ok rows =>
      rw [hA] at h
      injection h with h
      subst h
      refine ⟨by simp, rfl, ?_, ?_⟩
      · show 0 < _infer_nports filename
        omega
      · intro m hm
        have hm' : m ∈ rows.map fun r =>
            buildMatrix (_infer_nports filename).toNat (r.drop 1)
              (List.foldl stepLine initState text).fmt := hm
        simp only [List.mem_map] at hm'
        obtain ⟨r, _, hr⟩ := hm'
        subst hr
        show (buildMatrix (_infer_nports filename).toNat (r.drop 1)
              (List.foldl stepLine initState text).fmt).length =
            (_infer_nports filename).toNat ∧
          ∀ row ∈ buildMatrix (_infer_nports filename).toNat (r.drop 1)
              (List.foldl stepLine initState text).fmt,
            row.length = (_infer_nports filename).toNat
        refine ⟨by simp [buildMatrix], ?_⟩
        intro row hrow
        simp only [buildMatrix, List.mem_map] at hrow
        obtain ⟨i, _, hi⟩ := hrow
        subst hi
        simp

/-- Witness for C4: the example file decodes successfully and the resulting
dataset satisfies the invariants. -/
theorem c4_witness :
    read_touchstone "a.s1p".toList
        ["# MHZ S MA R 75".toList, "2 0.5 30".toList] = .ok c4ExampleDecode ∧
    (c4ExampleDecode.freq_hz.length = c4ExampleDecode.s.length ∧
      c4ExampleDecode.nports = _infer_nports "a.s1p".toList ∧
      0 < c4ExampleDecode.nports ∧
      ∀ m ∈ c4ExampleDecode.s, m.length = c4ExampleDecode.nports.toNat ∧
        ∀ row ∈ m, row.length = c4ExampleDecode.nports.toNat) := by
  have hok : (read_touchstone "a.s1p".toList
      ["# MHZ S MA R 75".toList, "2 0.5 30".toList]).isOk = true := by decide
  have hE : read_touchstone "a.s1p".toList
      ["# MHZ S MA R 75".toList, "2 0.5 30".toList] = .ok c4ExampleDecode := by
    unfold c4ExampleDecode
    cases hC : read_touchstone "a.s1p".toList
        ["# MHZ S MA R 75".toList, "2 0.5 30".toList] with
    | error e => rw [hC] at hok; simp [Except.isOk, Except.toBool] at hok
    | ok d => rfl
  exact ⟨hE, c4_dataset_invariants _ _ _ hE⟩

/-- The index reported by `indexOf?` for the first occurrence of an
element. -/
theorem indexOf?_append_cons (l₁ : List (List Char)) (a : List Char)
    (t : List (List Char)) (h : a ∉ l₁) :
    (l₁ ++ a :: t).indexOf? a = some l₁.length := by
  induction l₁ with
  | nil => simp [List.indexOf?_cons]
  | cons x l ih =>
    have hx : ¬(x == a) = true := by
      simp only [beq_iff_eq]
      intro hxa
      exact h (hxa ▸ List.mem_cons_self x l)
    have hmem : a ∉ l := fun hm => h (List.mem_cons_of_mem x hm)
    rw [List.cons_append, List.indexOf?_cons, if_neg hx, ih hmem]
    rfl

/-- C5 counterexample: the token after `R` parses as the negative real
`-5`, which the claim says should fall back to the default `50.0`, but the
source returns it. -/
theorem c5_counterexample :
    _parse_z0 ["R".toList, "-5".toList] = -5 ∧
    _parse_z0 ["R".toList, "-5".toList] ≠ 50 := by
  constructor <;> decide

/-- C5 (amended): if `R` is absent the reference impedance is the default
`50.0`; if the token after the first `R` exists and parses as a real
number — positive or not — that value is used; a missing or unparseable
follower falls back to `50.0`.  The stage never fails. -/
theorem c5_amended_reference_impedance :
    (∀ parts, "R".toList ∉ parts → _parse_z0 parts = 50) ∧
    (∀ l₁ t : List (List Char), "R".toList ∉ l₁ →
      _parse_z0 (l₁ ++ "R".toList :: t) =
        match t.head? with
        | some tok => (pyFloat? tok).getD 50
        | none => 50) := by
  constructor
  · intro parts hmem
    have hnone : parts.indexOf? "R".toList = none := by
      rw [List.indexOf?_eq_none_iff]
      intro x hx
      simp only [beq_iff_eq]
      intro hxa
      exact hmem (hxa ▸ hx)
    rw [_parse_z0, hnone]
  · intro l₁ t hmem
    rw [_parse_z0, indexOf?_append_cons l₁ _ t hmem]
    have hget : (l₁ ++ "R".toList :: t)[l₁.length + 1]? = t[0]? := by
      rw [List.getElem?_append_right (by omega)]
      simp
    dsimp only
    rw [hget]
    cases t with
    | nil => rfl
    | cons tok t' => simp

/-- Witness for C5: a header token list in which `R` is followed by `75`. -/
theorem c5_witness : _parse_z0 ["#".toList, "R".toList, "75".toList] = 75 := by
  have h := c5_amended_reference_impedance.2 ["#".toList] ["75".toList]
    (by decide)
  rw [show (["#".toList, "R".toList, "75".toList] : List (List Char)) =
    ["#".toList] ++ "R".toList :: ["75".toList] from rfl, h]
  decide

/-- C6 counterexample: a header token list containing both `KHZ` and `HZ`;
the claim requires scale `10³` whenever `KHZ` is present, but the source
checks `HZ` first and yields `1`. -/
theorem c6_counterexample :
    _unit_scale ["#".toList, "KHZ".toList, "HZ".toList] = 1 ∧
    _unit_scale ["#".toList, "KHZ".toList, "HZ".toList] ≠ 1000 := by
  constructor <;> decide

/-- C6 (amended): the unit scale is selected with the precedence
`HZ` > `KHZ` > `MHZ` > `GHZ` (the source's check order) and defaults to 1;
decoded frequencies are the raw token times the scale — in particular the
spec's example `# KHZ S RI R 50` with raw token `1000` decodes to
`1000000` Hz. -/
theorem c6_amended_unit_scale :
    (∀ parts, "HZ".toList ∈ parts → _unit_scale parts = 1) ∧
    (∀ parts, "HZ".toList ∉ parts → "KHZ".toList ∈ parts →
      _unit_scale parts = 1000) ∧
    (∀ parts, "HZ".toList ∉ parts → "KHZ".toList ∉ parts →
      "MHZ".toList ∈ parts → _unit_scale parts = 1000000) ∧
    (∀ parts, "HZ".toList ∉ parts → "KHZ".toList ∉ parts →
      "MHZ".toList ∉ parts → "GHZ".toList ∈ parts →
      _unit_scale parts = 1000000000) ∧
    (∀ parts, "HZ".toList ∉ parts → "KHZ".toList ∉ parts →
      "MHZ".toList ∉ parts → "GHZ".toList ∉ parts →
      _unit_scale parts = 1) ∧
    (read_touchstone "a.s1p".toList
        ["# KHZ S RI R 50".toList, "1000 0 0".toList]).toOption.map
      TouchstoneData.freq_hz = some [1000000] := by
  refine ⟨?_, ?_, ?_, ?_, ?_, by decide⟩
  · intro parts h1
    rw [_unit_scale, if_pos h1]
  · intro parts h1 h2
    rw [_unit_scale, if_neg h1, if_pos h2]
  · intro parts h1 h2 h3
    rw [_unit_scale, if_neg h1, if_neg h2, if_pos h3]
  · intro parts h1 h2 h3 h4
    rw [_unit_scale, if_neg h1, if_neg h2, if_neg h3, if_pos h4]
  · intro parts h1 h2 h3 h4
    rw [_unit_scale, if_neg h1, if_neg h2, if_neg h3, if_neg h4]

/-- Witness for C6: `KHZ` without `HZ` scales by 1000. -/
theorem c6_witness : _unit_scale ["#".toList, "KHZ".toList] = 1000 :=
  c6_amended_unit_scale.2.1 ["#".toList, "KHZ".toList] (by decide) (by decide)

/-- Characters of a stripped string are characters of the original. -/
theorem mem_pyStrip {c : Char} {l : List Char} (h : c ∈ pyStrip l) : c ∈ l := by
  rw [pyStrip, List.mem_reverse] at h
  have h2 : c ∈ (l.dropWhile isPySpace).reverse :=
    List.dropWhile_subset _ h
  rw [List.mem_reverse] at h2
  exact List.dropWhile_subset _ h2

/-- C7 counterexample: a header line with an inline `!` comment; the
retained upper-cased header token list includes `!` and the comment text
(which here even changes the parsed unit scale). -/
theorem c7_counterexample :
    "!".toList ∈ headerTokens (pyStrip "# S RI ! KHZ".toList) ∧
    "KHZ".toList ∈ headerTokens (pyStrip "# S RI ! KHZ".toList) ∧
    (stepLine initState "# S RI ! KHZ".toList).unit_scale = 1000 := by
  refine ⟨by decide, by decide, by decide⟩

/-- C7 (amended): inline `!` comments are removed before tokenization for
data lines only — the numeric tokens of a data line are unaffected by
anything from its first `!` on; a header line's retained upper-cased token
list is the whitespace split of the whole line, including the `!` and the
upper-cased comment text. -/
theorem c7_amended_comment_stripping :
    (∀ pre post : List Char, '!' ∉ pre →
      dataLineFloats (pre ++ '!' :: post) = dataLineFloats (pyStrip pre)) ∧
    headerTokens (pyStrip "# S RI ! KHZ".toList) =
      ["#".toList, "S".toList, "RI".toList, "!".toList, "KHZ".toList] := by
  refine ⟨?_, by decide⟩
  intro pre post hmem
  have hnotin : '!' ∉ pyStrip pre := fun hc => hmem (mem_pyStrip hc)
  have hc1 : (pre ++ '!' :: post).contains '!' = true := by
    simp [List.contains, List.elem_eq_mem]
  have hc2 : (pyStrip pre).contains '!' = false := by
    simp [List.contains, List.elem_eq_mem, hnotin]
  have htw : (pre ++ '!' :: post).takeWhile (fun c => c ≠ '!') = pre := by
    rw [List.takeWhile_append_of_pos (fun a ha => by
      simp only [ne_eq, decide_eq_true_eq]
      intro haeq
      exact hmem (haeq ▸ ha))]
    rw [List.takeWhile_cons_of_neg (by simp), List.append_nil]
  rw [dataLineFloats, dataLineFloats, hc1, hc2, htw]
  simp

/-- Witness for C7: a concrete data line whose inline comment carries
numeric-looking text; the extracted tokens ignore it. -/
theorem c7_witness :
    dataLineFloats ("1 2".toList ++ '!' :: " junk 9".toList) =
      dataLineFloats (pyStrip "1 2".toList) ∧
    dataLineFloats (pyStrip "1 2".toList) = [1, 2] :=
  ⟨c7_amended_comment_stripping.1 "1 2".toList " junk 9".toList (by decide),
    by decide⟩

/-- Witness for C8 at `m = 1`, `θ = 0`. -/
theorem c8_witness :
    (0 : ℝ) < 1 ∧
    (_to_complex (1 * Real.cos (deg2rad 0)) (1 * Real.sin (deg2rad 0)) "RI".toList =
        _to_complex 1 0 "MA".toList ∧
      _to_complex (20 * Real.logb 10 1) 0 "DB".toList =
        _to_complex 1 0 "MA".toList) :=
  ⟨by norm_num, c8_encoding_equivalence 1 0 (by norm_num)⟩

/-- Unfolding lemma for `afterLastSep?` on a nonempty list. -/
theorem afterLastSep?_cons (a b c : Char) (t : List Char) :
    afterLastSep? a b (c :: t) =
      match afterLastSep? a b t with
      | some v => some v
      | none =>
        match t with
        | d :: v => if c = a && d = b then some v else none
        | [] => none := rfl

/-- Helper: `afterLastSep?` finds a suffix exactly when the separator occurs. -/
theorem afterLastSep?_isSome (a b : Char) (l : List Char) :
    (afterLastSep? a b l).isSome = containsSub a b l := by
  induction l with
  | nil => rfl
  | cons c t ih =>
    rw [afterLastSep?_cons]
    cases t with
    | nil => rfl
    | cons d t' =>
      rw [containsSub]
      cases hA : afterLastSep? a b (d :: t') with
      | some v =>
        rw [hA] at ih
        simp only [Option.isSome_some] at ih
        simp [← ih]
      | none =>
        rw [hA] at ih
        simp only [Option.isSome_none] at ih
        by_cases hcd : (c = a && d = b) = true
        · simp [hcd]
        · simp only [Bool.not_eq_true] at hcd
          simp [hcd, ← ih]

/-- A string not containing the separator's first character does not
contain the separator. -/
theorem containsSub_eq_false_of_not_mem (a b : Char) (v : List Char)
    (ha : a ∉ v) : containsSub a b v = false := by
  induction v with
  | nil => rfl
  | cons c t ih =>
    cases t with
    | nil => rfl
    | cons d t' =>
      rw [containsSub]
      have hca : ¬(c = a) := fun h => ha (h ▸ List.mem_cons_self c (d :: t'))
      have hrest : a ∉ d :: t' := fun h => ha (List.mem_cons_of_mem c h)
      simp [hca, ih hrest]

/-- The suffix after the last separator occurrence, when the separator's
characters are distinct and the suffix itself is occurrence-free. -/
theorem afterLastSep?_append (a b : Char) (hab : a ≠ b) (v : List Char)
    (hv : containsSub a b v = false) (u : List Char) :
    afterLastSep? a b (u ++ a :: b :: v) = some v := by
  induction u with
  | nil =>
    rw [List.nil_append, afterLastSep?_cons]
    have hbv : afterLastSep? a b (b :: v) = none := by
      have hs := afterLastSep?_isSome a b (b :: v)
      have hc : containsSub a b (b :: v) = false := by
        cases v with
        | nil => rfl
        | cons e v' =>
          rw [containsSub]
          have hba : ¬(b = a) := fun h => hab h.symm
          simp [hba, hv]
      rw [hc] at hs
      exact Option.not_isSome_iff_eq_none.mp (by simp [hs])
    rw [hbv]
    simp

  | cons c u' ih =>
    rw [List.cons_append, afterLastSep?_cons, ih]

/-- Helper: `dropWhile` is the identity when no element satisfies the predicate. -/
theorem dropWhile_eq_self_of_all {p : Char → Bool} {l : List Char}
    (h : ∀ c ∈ l, p c = false) : l.dropWhile p = l := by
  cases l with
  | nil => rfl
  | cons c t =>
    exact List.dropWhile_cons_of_neg (by
      rw [h c (List.mem_cons_self c t)]
      simp)

/-- Stripping a string with no whitespace characters is the identity. -/
theorem pyStrip_of_all_nonspace {l : List Char}
    (h : ∀ c ∈ l, isPySpace c = false) : pyStrip l = l := by
  rw [pyStrip, dropWhile_eq_self_of_all h,
    dropWhile_eq_self_of_all (fun c hc => h c (List.mem_reverse.mp hc)),
    List.reverse_reverse]

/-- Decimal digits are not Python whitespace. -/
theorem not_isPySpace_of_isDigit {c : Char} (h : c.isDigit = true) :
    isPySpace c = false := by
  rw [isPySpace]
  simp only [Bool.or_eq_false_iff, decide_eq_false_iff_not]
  refine ⟨⟨⟨⟨⟨?_, ?_⟩, ?_⟩, ?_⟩, ?_⟩, ?_⟩ <;>
    exact fun heq => absurd (heq ▸ h) (by decide)

/-- A nonempty all-digit string is a valid digit group. -/
theorem groupedDigitsOk_of_digits {c : Char} {t : List Char}
    (hd : ∀ x ∈ c :: t, x.isDigit = true) :
    groupedDigitsOk (c :: t) = true := by
  cases hL : (c :: t).getLast? with
  | none => simp at hL
  | some d =>
    have hdm : d ∈ c :: t := by
      have := List.getLast?_eq_getLast (c :: t) (by simp)
      rw [hL] at this
      injection this with this
      exact this ▸ List.getLast_mem (by simp)
    rw [groupedDigitsOk.eq_def]
    rw [show (c :: t).head? = some c from rfl, hL]
    simp only [Bool.and_eq_true, List.all_eq_true]
    refine ⟨⟨⟨hd c (List.mem_cons_self c t), hd d hdm⟩, ?_⟩, ?_⟩
    · intro x hx
      simp [hd x hx]
    · intro pr hpr
      have hx := (List.of_mem_zip hpr).1
      have hdig := hd pr.1 hx
      have : ¬(pr.1 = '_') := fun hu => absurd (hu ▸ hdig) (by decide)
      simp [this]

/-- Helper: `pyInt?` succeeds on a nonempty all-digit string and returns its
decimal value. -/
theorem pyInt?_all_digits {c : Char} {t : List Char}
    (hd : ∀ x ∈ c :: t, x.isDigit = true) :
    pyInt? (c :: t) = some (digitsToNat (c :: t) : ℤ) := by
  have hstrip : pyStrip (c :: t) = c :: t :=
    pyStrip_of_all_nonspace (fun x hx => not_isPySpace_of_isDigit (hd x hx))
  have hc : c.isDigit = true := hd c (List.mem_cons_self c t)
  have h1 : ¬(c = '+') := fun h => absurd (h ▸ hc) (by decide)
  have h2 : ¬(c = '-') := fun h => absurd (h ▸ hc) (by decide)
  rw [pyInt?, hstrip, splitSign, if_neg h1, if_neg h2]
  dsimp only
  rw [if_pos (groupedDigitsOk_of_digits hd)]
  simp

/-- C2 counterexample: `foo.s+1p` does not match the spec's digits-only
pattern, yet the decoder accepts it (Python `int` accepts the sign) and
decodes a 1-port file instead of failing with `UnrecognizedPortCount`. -/
theorem c2_counterexample :
    specPortPattern "foo.s+1p".toList = false ∧
    _infer_nports "foo.s+1p".toList = 1 ∧
    (read_touchstone "foo.s+1p".toList ["1 0 0".toList]).isOk = true := by
  refine ⟨by decide, by decide, by decide⟩

/-- C2 (amended): a filename matching the spec pattern yields exactly its
embedded digit value (part 1); more generally any filename whose text
between the last `.s` (case-insensitively) and the trailing `p` parses
under Python `int` syntax — which also admits surrounding whitespace, a
sign and `_` separators — yields the parsed value (part 2); and whenever
the inferred count is not positive (no match, unparseable text, zero or
negative value) the decode fails with `UnrecognizedPortCount` (part 3). -/
theorem c2_amended_port_inference :
    (∀ f : List Char, specPortPattern f = true →
      _infer_nports f = (specPortValue f : ℤ)) ∧
    (∀ (f : List Char) (n : ℤ),
      containsSub '.' 's' (f.map Char.toLower) = true →
      (f.map Char.toLower).getLast? = some 'p' →
      pyInt? (lastSplitSeg '.' 's' (f.map Char.toLower)).dropLast = some n →
      _infer_nports f = n) ∧
    (∀ (f : List Char) (text : List (List Char)), _infer_nports f ≤ 0 →
      read_touchstone f text = .error .unrecognizedPortCount) := by
  refine ⟨?_, ?_, ?_⟩
  · intro f hpat
    simp only [specPortPattern, Bool.and_eq_true, Bool.not_eq_true',
      decide_eq_true_eq] at hpat
    obtain ⟨⟨hp, hds⟩, hafter⟩ := hpat
    set lower := f.map Char.toLower with hlowdef
    set ds := lower.reverse.tail.takeWhile Char.isDigit with hdsdef
    set after := lower.reverse.tail.dropWhile Char.isDigit with hafterdef
    have hau : ∃ u, after = 's' :: '.' :: u := by
      cases hA : after with
      | nil => rw [hA] at hafter; simp at hafter
      | cons x t1 =>
        cases t1 with
        | nil => rw [hA] at hafter; simp at hafter
        | cons y u =>
          rw [hA] at hafter
          simp only [List.take_cons, List.take, List.cons.injEq] at hafter
          exact ⟨u, by rw [hafter.1, hafter.2.1]⟩
    obtain ⟨u, hau⟩ := hau
    have hdsne : ds ≠ [] := by
      intro h
      rw [h] at hds
      simp at hds
    have hdsdig : ∀ x ∈ ds, x.isDigit = true := fun x hx =>
      List.mem_takeWhile_imp hx
    have hrev : lower.reverse = 'p' :: (ds ++ after) := by
      cases hR : lower.reverse with
      | nil => rw [hR] at hp; simp at hp
      | cons c t =>
        rw [hR] at hp
        simp only [List.head?_cons, Option.some.injEq] at hp
        have htail : t = ds ++ after := by
          have : lower.reverse.tail = ds ++ after :=
            (List.takeWhile_append_dropWhile _ _).symm
          rw [hR] at this
          simpa using this
        rw [hp, htail]
    have hlow : lower = u.reverse ++ '.' :: 's' :: (ds.reverse ++ ['p']) := by
      have hc := congrArg List.reverse hrev
      rw [List.reverse_reverse] at hc
      rw [hc, hau]
      simp
    have hvfalse : containsSub '.' 's' (ds.reverse ++ ['p']) = false := by
      apply containsSub_eq_false_of_not_mem
      intro hmem
      rcases List.mem_append.mp hmem with h | h
      · exact absurd (hdsdig _ (List.mem_reverse.mp h)) (by decide)
      · simp at h
    have hALS : afterLastSep? '.' 's' lower = some (ds.reverse ++ ['p']) := by
      rw [hlow]
      exact afterLastSep?_append '.' 's' (by decide) _ hvfalse u.reverse
    have hcont : containsSub '.' 's' lower = true := by
      have hiso := afterLastSep?_isSome '.' 's' lower
      rw [hALS] at hiso
      simpa using hiso.symm
    have hgl : lower.getLast? = some 'p' := by
      rw [hlow, show u.reverse ++ '.' :: 's' :: (ds.reverse ++ ['p']) =
        (u.reverse ++ '.' :: 's' :: ds.reverse) ++ ['p'] by simp]
      exact List.getLast?_concat _
    simp only [_infer_nports]
    rw [if_pos (by simp [hcont, hgl]), lastSplitSeg, hALS]
    simp only [Option.getD_some]
    rw [List.dropLast_concat]
    cases hdz : ds.reverse with
    | nil => exact absurd (by simpa using congrArg List.reverse hdz) hdsne
    | cons c t =>
      have hrd : ∀ x ∈ c :: t, x.isDigit = true := by
        intro x hx
        rw [← hdz] at hx
        exact hdsdig x (List.mem_reverse.mp hx)
      rw [pyInt?_all_digits hrd]
      rw [show specPortValue f = digitsToNat ds.reverse by
        rw [specPortValue, ← hlowdef, ← hdsdef]]
      rw [hdz]
  · intro f n hcont hlast hint
    simp only [_infer_nports]
    rw [if_pos (by simp [hcont, hlast]), hint]
  · intro f text hn
    simp only [read_touchstone]
    rw [if_pos hn]

/-- Witness for C2: `foo.s4p` matches the spec pattern and decodes to port
count 4; a non-matching name fails with `UnrecognizedPortCount`. -/
theorem c2_witness :
    specPortPattern "foo.s4p".toList = true ∧
    _infer_nports "foo.s4p".toList = (specPortValue "foo.s4p".toList : ℤ) ∧
    specPortValue "foo.s4p".toList = 4 ∧
    decodeError? (read_touchstone "nope.txt".toList ["1 0 0".toList]) =
      some .unrecognizedPortCount := by
  refine ⟨by decide, c2_amended_port_inference.1 _ (by decide), by decide, ?_⟩
  rw [c2_amended_port_inference.2.2 "nope.txt".toList ["1 0 0".toList]
    (by decide)]
  rfl

/-- C10: the inferred port count depends only on the suffix after the last
`.s` of the lower-cased filename (given that the name contains `.s` and
ends in `p`); in particular `a.s2p.s3p` decodes to 3 ports, not 2. -/
theorem c10_last_dot_s_wins :
    (∀ f g : List Char,
      containsSub '.' 's' (f.map Char.toLower) = true →
      containsSub '.' 's' (g.map Char.toLower) = true →
      (f.map Char.toLower).getLast? = some 'p' →
      (g.map Char.toLower).getLast? = some 'p' →
      afterLastSep? '.' 's' (f.map Char.toLower) =
        afterLastSep? '.' 's' (g.map Char.toLower) →
      _infer_nports f = _infer_nports g) ∧
    _infer_nports "a.s2p.s3p".toList = 3 := by
  refine ⟨?_, by decide⟩
  intro f g hcf hcg hlf hlg heq
  simp only [_infer_nports]
  rw [if_pos (by simp [hcf, hlf]), if_pos (by simp [hcg, hlg]),
    lastSplitSeg, lastSplitSeg]
  have hsf := afterLastSep?_isSome '.' 's' (f.map Char.toLower)
  rw [hcf] at hsf
  obtain ⟨v, hv⟩ := Option.isSome_iff_exists.mp hsf
  have hg : afterLastSep? '.' 's' (g.map Char.toLower) = some v := heq ▸ hv
  rw [hv, hg]
  simp only [Option.getD_some]

/-- Witness for C10: `a.s2p.s3p` and `b.s3p` share the suffix after the
last `.s` and decode to the same port count, 3. -/
theorem c10_witness :
    _infer_nports "a.s2p.s3p".toList = _infer_nports "b.s3p".toList ∧
    _infer_nports "b.s3p".toList = 3 :=
  ⟨c10_last_dot_s_wins.1 _ _ (by decide) (by decide) (by decide) (by decide)
    (by decide), by decide⟩

end SnpViewer
